import Mathlib

/-!
Verification development for the RepoActivity repository (Rust sources:
src/models.rs, src/git.rs, src/db.rs, src/main.rs).

Shallow embedding conventions:
* `DateTime<Utc>` instants are modelled as `Int` (seconds on the UTC timeline);
  `Utc::now()` at construction time is passed in explicitly as a `now : Int`
  parameter.  `usize` counters are modelled as `Nat`.
* `HashMap<String, ContributorStats>` is modelled as an association list with
  unique keys; `entry(..).or_insert_with(..)` becomes `contribUpdate`.
* Fallible Rust code (`anyhow::Result`) is modelled with `Except String`.
-/

-- ======================================================================
-- src/models.rs
-- ======================================================================

structure CommitInfo where
  hash : String
  author : String
  email : String
  date : Int
  message : String
  lines_added : Nat
  lines_removed : Nat
  files_changed : Nat
deriving DecidableEq

structure ContributorStats where
  commits : Nat
  lines_added : Nat
  lines_removed : Nat
  first_commit : Int
  last_commit : Int
deriving DecidableEq

structure RepositoryStats where
  repo_path : String
  total_commits : Nat
  total_lines_added : Nat
  total_lines_removed : Nat
  first_commit_date : Int
  last_commit_date : Int
  contributors : List (String × ContributorStats)
  commits : List CommitInfo
deriving DecidableEq

/-- `RepositoryStats::new`: both date fields default to `Utc::now()`
(the construction-time instant `now`). -/
def RepositoryStats.new (now : Int) (repo_path : String) : RepositoryStats :=
  { repo_path := repo_path
    total_commits := 0
    total_lines_added := 0
    total_lines_removed := 0
    first_commit_date := now
    last_commit_date := now
    contributors := []
    commits := [] }

/-- The `or_insert_with` closure in `RepositoryStats::add_commit`: a fresh
`ContributorStats` with zero totals and both timestamps seeded to the
record's date. -/
def seedContributor (date : Int) : ContributorStats :=
  { commits := 0, lines_added := 0, lines_removed := 0
    first_commit := date, last_commit := date }

/-- The in-place mutations `add_commit` applies to the contributor entry:
increment `commits`, add the line counts, lower `first_commit` if the new
date is earlier, raise `last_commit` if it is later. -/
def bumpContributor (commit : CommitInfo) (c : ContributorStats) : ContributorStats :=
  let c1 : ContributorStats :=
    { c with commits := c.commits + 1
             lines_added := c.lines_added + commit.lines_added
             lines_removed := c.lines_removed + commit.lines_removed }
  let c2 : ContributorStats :=
    if commit.date < c1.first_commit then { c1 with first_commit := commit.date } else c1
  if commit.date > c2.last_commit then { c2 with last_commit := commit.date } else c2

/-- `self.contributors.entry(commit.author.clone()).or_insert_with(..)`
followed by the mutations: update the entry for the author's key in place,
or append a freshly seeded (then mutated) entry if the key is absent. -/
def contribUpdate : List (String × ContributorStats) → CommitInfo → List (String × ContributorStats)
  | [], commit => [(commit.author, bumpContributor commit (seedContributor commit.date))]
  | (k, v) :: rest, commit =>
      if k = commit.author then (k, bumpContributor commit v) :: rest
      else (k, v) :: contribUpdate rest commit

/-- `HashMap::get` on the modelled contributor map. -/
def contribFind : List (String × ContributorStats) → String → Option ContributorStats
  | [], _ => none
  | (k, v) :: rest, name => if k = name then some v else contribFind rest name

/-- `RepositoryStats::add_commit` (src/models.rs lines 53-91), translated
statement by statement.  Note that the `first_commit_date` branch tests
`self.total_commits == 1 || commit.date < self.first_commit_date` (the
counter has already been incremented), while the `last_commit_date` branch
tests only `commit.date > self.last_commit_date`. -/
def RepositoryStats.add_commit (self : RepositoryStats) (commit : CommitInfo) : RepositoryStats :=
  let total_commits := self.total_commits + 1
  let first_commit_date :=
    if total_commits = 1 ∨ commit.date < self.first_commit_date then commit.date
    else self.first_commit_date
  let last_commit_date :=
    if commit.date > self.last_commit_date then commit.date
    else self.last_commit_date
  { self with
    total_commits := total_commits
    total_lines_added := self.total_lines_added + commit.lines_added
    total_lines_removed := self.total_lines_removed + commit.lines_removed
    first_commit_date := first_commit_date
    last_commit_date := last_commit_date
    contributors := contribUpdate self.contributors commit
    commits := self.commits ++ [commit] }

-- ======================================================================
-- Generic min/max fold helpers used to characterise the date bookkeeping
-- ======================================================================

def minFold (d : Int) (ds : List Int) : Int := ds.foldl min d

def maxFold (d : Int) (ds : List Int) : Int := ds.foldl max d

/-- Minimum of a nonempty list (junk value `0` on `[]`). -/
def minFoldNE : List Int → Int
  | [] => 0
  | d :: ds => minFold d ds

/-- Maximum of a nonempty list (junk value `0` on `[]`). -/
def maxFoldNE : List Int → Int
  | [] => 0
  | d :: ds => maxFold d ds

theorem minFold_cons (d x : Int) (ds : List Int) :
    minFold d (x :: ds) = minFold (min d x) ds := rfl

theorem maxFold_cons (d x : Int) (ds : List Int) :
    maxFold d (x :: ds) = maxFold (max d x) ds := rfl

theorem minFold_le_init (d : Int) (ds : List Int) : minFold d ds ≤ d := by
  induction ds generalizing d with
  | nil => exact le_refl d
  | cons x t ih =>
    rw [minFold_cons]
    exact le_trans (ih (min d x)) (min_le_left d x)

theorem minFold_le_mem (d : Int) {ds : List Int} {x : Int} (hx : x ∈ ds) :
    minFold d ds ≤ x := by
  induction ds generalizing d with
  | nil => cases hx
  | cons y t ih =>
    rw [minFold_cons]
    rcases List.mem_cons.mp hx with h | h
    · subst h
      exact le_trans (minFold_le_init (min d x) t) (min_le_right d x)
    · exact ih (min d y) h

theorem minFold_mem_or (d : Int) (ds : List Int) :
    minFold d ds = d ∨ minFold d ds ∈ ds := by
  induction ds generalizing d with
  | nil => exact Or.inl rfl
  | cons x t ih =>
    rw [minFold_cons]
    rcases ih (min d x) with h | h
    · rcases min_cases d x with ⟨hm, _⟩ | ⟨hm, _⟩
      · exact Or.inl (h.trans hm)
      · exact Or.inr (List.mem_cons.mpr (Or.inl (h.trans hm)))
    · exact Or.inr (List.mem_cons.mpr (Or.inr h))

theorem init_le_maxFold (d : Int) (ds : List Int) : d ≤ maxFold d ds := by
  induction ds generalizing d with
  | nil => exact le_refl d
  | cons x t ih =>
    rw [maxFold_cons]
    exact le_trans (le_max_left d x) (ih (max d x))

theorem mem_le_maxFold (d : Int) {ds : List Int} {x : Int} (hx : x ∈ ds) :
    x ≤ maxFold d ds := by
  induction ds generalizing d with
  | nil => cases hx
  | cons y t ih =>
    rw [maxFold_cons]
    rcases List.mem_cons.mp hx with h | h
    · subst h
      exact le_trans (le_max_right d x) (init_le_maxFold (max d x) t)
    · exact ih (max d y) h

theorem maxFold_mem_or (d : Int) (ds : List Int) :
    maxFold d ds = d ∨ maxFold d ds ∈ ds := by
  induction ds generalizing d with
  | nil => exact Or.inl rfl
  | cons x t ih =>
    rw [maxFold_cons]
    rcases ih (max d x) with h | h
    · rcases max_cases d x with ⟨hm, _⟩ | ⟨hm, _⟩
      · exact Or.inl (h.trans hm)
      · exact Or.inr (List.mem_cons.mpr (Or.inl (h.trans hm)))
    · exact Or.inr (List.mem_cons.mpr (Or.inr h))

theorem maxFold_perm (d : Int) {ds₁ ds₂ : List Int} (h : ds₁.Perm ds₂) :
    maxFold d ds₁ = maxFold d ds₂ := by
  apply le_antisymm
  · rcases maxFold_mem_or d ds₁ with he | hm
    · rw [he]; exact init_le_maxFold d ds₂
    · exact mem_le_maxFold d (h.mem_iff.mp hm)
  · rcases maxFold_mem_or d ds₂ with he | hm
    · rw [he]; exact init_le_maxFold d ds₁
    · exact mem_le_maxFold d (h.mem_iff.mpr hm)

theorem minFoldNE_mem {ds : List Int} (h : ds ≠ []) : minFoldNE ds ∈ ds := by
  match ds with
  | [] => exact absurd rfl h
  | d :: t =>
    rcases minFold_mem_or d t with he | hm
    · exact List.mem_cons.mpr (Or.inl he)
    · exact List.mem_cons.mpr (Or.inr hm)

theorem minFoldNE_le {ds : List Int} {x : Int} (hx : x ∈ ds) : minFoldNE ds ≤ x := by
  match ds with
  | [] => cases hx
  | d :: t =>
    rcases List.mem_cons.mp hx with h | h
    · subst h; exact minFold_le_init x t
    · exact minFold_le_mem d h

theorem minFoldNE_perm {ds₁ ds₂ : List Int} (h : ds₁.Perm ds₂) (hne : ds₁ ≠ []) :
    minFoldNE ds₁ = minFoldNE ds₂ := by
  have hne₂ : ds₂ ≠ [] := by
    intro h0; subst h0; exact hne h.eq_nil
  apply le_antisymm
  · exact minFoldNE_le (h.mem_iff.mpr (minFoldNE_mem hne₂))
  · exact minFoldNE_le (h.mem_iff.mp (minFoldNE_mem hne))

theorem maxFoldNE_mem {ds : List Int} (h : ds ≠ []) : maxFoldNE ds ∈ ds := by
  match ds with
  | [] => exact absurd rfl h
  | d :: t =>
    rcases maxFold_mem_or d t with he | hm
    · exact List.mem_cons.mpr (Or.inl he)
    · exact List.mem_cons.mpr (Or.inr hm)

theorem maxFoldNE_ge {ds : List Int} {x : Int} (hx : x ∈ ds) : x ≤ maxFoldNE ds := by
  match ds with
  | [] => cases hx
  | d :: t =>
    rcases List.mem_cons.mp hx with h | h
    · subst h; exact init_le_maxFold x t
    · exact mem_le_maxFold d h

theorem maxFoldNE_perm {ds₁ ds₂ : List Int} (h : ds₁.Perm ds₂) (hne : ds₁ ≠ []) :
    maxFoldNE ds₁ = maxFoldNE ds₂ := by
  have hne₂ : ds₂ ≠ [] := by
    intro h0; subst h0; exact hne h.eq_nil
  apply le_antisymm
  · exact maxFoldNE_ge (h.mem_iff.mp (maxFoldNE_mem hne))
  · exact maxFoldNE_ge (h.mem_iff.mpr (maxFoldNE_mem hne₂))

-- ======================================================================
-- Characterisation of folding `add_commit` over a list of records
-- ======================================================================

theorem add_commit_commits (s : RepositoryStats) (c : CommitInfo) :
    (s.add_commit c).commits = s.commits ++ [c] := rfl

theorem foldl_add_commit_commits (s : RepositoryStats) (l : List CommitInfo) :
    (l.foldl RepositoryStats.add_commit s).commits = s.commits ++ l := by
  induction l generalizing s with
  | nil => simp
  | cons c t ih =>
    simp only [List.foldl_cons]
    rw [ih (s.add_commit c), add_commit_commits]
    simp

theorem foldl_add_commit_total (s : RepositoryStats) (l : List CommitInfo) :
    (l.foldl RepositoryStats.add_commit s).total_commits = s.total_commits + l.length := by
  induction l generalizing s with
  | nil => simp
  | cons c t ih =>
    simp only [List.foldl_cons]
    rw [ih (s.add_commit c)]
    show s.total_commits + 1 + t.length = _
    simp [List.length_cons]
    omega

theorem foldl_add_commit_lines_added (s : RepositoryStats) (l : List CommitInfo) :
    (l.foldl RepositoryStats.add_commit s).total_lines_added =
      s.total_lines_added + (l.map CommitInfo.lines_added).sum := by
  induction l generalizing s with
  | nil => simp
  | cons c t ih =>
    simp only [List.foldl_cons]
    rw [ih (s.add_commit c)]
    show s.total_lines_added + c.lines_added + _ = _
    simp [List.sum_cons]
    omega

theorem foldl_add_commit_lines_removed (s : RepositoryStats) (l : List CommitInfo) :
    (l.foldl RepositoryStats.add_commit s).total_lines_removed =
      s.total_lines_removed + (l.map CommitInfo.lines_removed).sum := by
  induction l generalizing s with
  | nil => simp
  | cons c t ih =>
    simp only [List.foldl_cons]
    rw [ih (s.add_commit c)]
    show s.total_lines_removed + c.lines_removed + _ = _
    simp [List.sum_cons]
    omega

theorem foldl_add_commit_path (s : RepositoryStats) (l : List CommitInfo) :
    (l.foldl RepositoryStats.add_commit s).repo_path = s.repo_path := by
  induction l generalizing s with
  | nil => rfl
  | cons c t ih => exact ih (s.add_commit c)

/-- Once at least one commit has been folded, the `total_commits == 1`
disjunct of the `first_commit_date` update is dead and the fold computes a
plain running minimum. -/
theorem foldl_add_commit_first_of_pos (s : RepositoryStats) (l : List CommitInfo)
    (h : 1 ≤ s.total_commits) :
    (l.foldl RepositoryStats.add_commit s).first_commit_date =
      minFold s.first_commit_date (l.map CommitInfo.date) := by
  induction l generalizing s with
  | nil => rfl
  | cons c t ih =>
    simp only [List.foldl_cons, List.map_cons]
    rw [ih (s.add_commit c) (by show 1 ≤ s.total_commits + 1; omega), minFold_cons]
    have hfirst : (s.add_commit c).first_commit_date = min s.first_commit_date c.date := by
      show (if s.total_commits + 1 = 1 ∨ c.date < s.first_commit_date then c.date
        else s.first_commit_date) = _
      have h1 : ¬ s.total_commits + 1 = 1 := by omega
      by_cases hlt : c.date < s.first_commit_date
      · simp [h1, hlt, min_def]
        omega
      · simp [h1, hlt, min_def]
        omega
    rw [hfirst]

/-- The `last_commit_date` fold is a running maximum seeded with whatever
value the state already holds (for a fresh state: the construction instant). -/
theorem foldl_add_commit_last (s : RepositoryStats) (l : List CommitInfo) :
    (l.foldl RepositoryStats.add_commit s).last_commit_date =
      maxFold s.last_commit_date (l.map CommitInfo.date) := by
  induction l generalizing s with
  | nil => rfl
  | cons c t ih =>
    simp only [List.foldl_cons, List.map_cons]
    rw [ih (s.add_commit c), maxFold_cons]
    have hlast : (s.add_commit c).last_commit_date = max s.last_commit_date c.date := by
      show (if c.date > s.last_commit_date then c.date else s.last_commit_date) = _
      by_cases hgt : c.date > s.last_commit_date
      · simp [hgt, max_def]
        omega
      · simp [hgt, max_def]
        omega
    rw [hlast]

/-- From a fresh accumulator, `first_commit_date` is the true minimum of the
folded records' dates (the very first record always overwrites the
construction-time default). -/
theorem foldl_add_commit_first_fresh (now : Int) (path : String) (l : List CommitInfo) :
    (l.foldl RepositoryStats.add_commit (RepositoryStats.new now path)).first_commit_date =
      match l.map CommitInfo.date with
      | [] => now
      | d :: ds => minFold d ds := by
  match l with
  | [] => rfl
  | c :: t =>
    simp only [List.foldl_cons, List.map_cons]
    have hfirst : ((RepositoryStats.new now path).add_commit c).first_commit_date = c.date := by
      show (if 0 + 1 = 1 ∨ c.date < now then c.date else now) = c.date
      simp
    have := foldl_add_commit_first_of_pos ((RepositoryStats.new now path).add_commit c) t
      (by show 1 ≤ 0 + 1; omega)
    rw [this, hfirst]

-- ======================================================================
-- Contributor rollup characterisation
-- ======================================================================

theorem bumpContributor_eq (commit : CommitInfo) (c : ContributorStats) :
    bumpContributor commit c =
      { commits := c.commits + 1
        lines_added := c.lines_added + commit.lines_added
        lines_removed := c.lines_removed + commit.lines_removed
        first_commit := min c.first_commit commit.date
        last_commit := max c.last_commit commit.date } := by
  unfold bumpContributor
  by_cases h1 : commit.date < c.first_commit <;>
    by_cases h2 : commit.date > c.last_commit <;>
      simp [h1, h2, min_def, max_def] <;> omega

/-- One step of the per-author aggregation: `none` means the author has not
been sighted yet (entry created from the seed, then mutated). -/
def contribStep (o : Option ContributorStats) (c : CommitInfo) : Option ContributorStats :=
  some (bumpContributor c (o.getD (seedContributor c.date)))

theorem contribFind_contribUpdate (m : List (String × ContributorStats))
    (c : CommitInfo) (name : String) :
    contribFind (contribUpdate m c) name =
      if c.author = name then contribStep (contribFind m name) c
      else contribFind m name := by
  induction m with
  | nil =>
    simp only [contribUpdate, contribFind]
    by_cases h : c.author = name <;> simp [h, contribStep, contribFind]
  | cons p rest ih =>
    obtain ⟨k, v⟩ := p
    by_cases hk : k = c.author
    · by_cases hn : k = name
      · have hcn : c.author = name := by rw [← hk]; exact hn
        simp [contribUpdate, contribFind, hk, hn, hcn, contribStep]
      · have hcn : ¬ c.author = name := by rw [← hk]; exact hn
        simp [contribUpdate, contribFind, hk, hn, hcn]
    · by_cases hn : k = name
      · have hcn : ¬ c.author = name := fun h => hk (hn.trans h.symm)
        have hnc : ¬ name = c.author := fun h2 => hcn h2.symm
        simp [contribUpdate, contribFind, hk, hn, hcn, hnc]
      · simp [contribUpdate, contribFind, hk, hn, ih]

theorem foldl_add_commit_contribFind (s : RepositoryStats) (l : List CommitInfo)
    (name : String) :
    contribFind (l.foldl RepositoryStats.add_commit s).contributors name =
      (l.filter (fun c => c.author == name)).foldl contribStep
        (contribFind s.contributors name) := by
  induction l generalizing s with
  | nil => rfl
  | cons c t ih =>
    simp only [List.foldl_cons]
    rw [ih (s.add_commit c)]
    have hupd : (s.add_commit c).contributors = contribUpdate s.contributors c := rfl
    rw [hupd, contribFind_contribUpdate]
    by_cases h : c.author = name
    · simp [List.filter_cons, h]
    · have hb : (c.author == name) = false := by
        simp [h]
      simp [List.filter_cons, hb, h]

theorem foldl_contribStep_some (cs : ContributorStats) (t : List CommitInfo) :
    t.foldl contribStep (some cs) =
      some (t.foldl (fun a c => bumpContributor c a) cs) := by
  induction t generalizing cs with
  | nil => rfl
  | cons c r ih =>
    simp only [List.foldl_cons]
    rw [show contribStep (some cs) c = some (bumpContributor c cs) from rfl, ih]

theorem foldl_bump_char (cs : ContributorStats) (t : List CommitInfo) :
    t.foldl (fun a c => bumpContributor c a) cs =
      { commits := cs.commits + t.length
        lines_added := cs.lines_added + (t.map CommitInfo.lines_added).sum
        lines_removed := cs.lines_removed + (t.map CommitInfo.lines_removed).sum
        first_commit := minFold cs.first_commit (t.map CommitInfo.date)
        last_commit := maxFold cs.last_commit (t.map CommitInfo.date) } := by
  induction t generalizing cs with
  | nil => simp [minFold, maxFold]
  | cons c r ih =>
    simp only [List.foldl_cons]
    rw [ih (bumpContributor c cs), bumpContributor_eq]
    simp only [List.map_cons, List.sum_cons, List.length_cons, minFold_cons, maxFold_cons]
    congr 1 <;> omega

/-- Aggregating a nonempty per-author record list from scratch. -/
theorem foldl_contribStep_char (c : CommitInfo) (t : List CommitInfo) :
    (c :: t).foldl contribStep none =
      some
        { commits := 1 + t.length
          lines_added := c.lines_added + (t.map CommitInfo.lines_added).sum
          lines_removed := c.lines_removed + (t.map CommitInfo.lines_removed).sum
          first_commit := minFold c.date (t.map CommitInfo.date)
          last_commit := maxFold c.date (t.map CommitInfo.date) } := by
  have h0 : contribStep none c = some (bumpContributor c (seedContributor c.date)) := rfl
  simp only [List.foldl_cons, h0]
  rw [foldl_contribStep_some, foldl_bump_char, bumpContributor_eq]
  simp [seedContributor]

/-- The per-author aggregate depends only on the multiset of that author's
records, never on their order. -/
theorem foldl_contribStep_perm {lf₁ lf₂ : List CommitInfo} (h : lf₁.Perm lf₂) :
    lf₁.foldl contribStep none = lf₂.foldl contribStep none := by
  cases lf₁ with
  | nil =>
    have h2 : lf₂ = [] := h.symm.eq_nil
    subst h2; rfl
  | cons c₁ t₁ =>
    cases lf₂ with
    | nil => exact absurd h.eq_nil (by simp)
    | cons c₂ t₂ =>
      rw [foldl_contribStep_char, foldl_contribStep_char]
      have hdates : ((c₁ :: t₁).map CommitInfo.date).Perm ((c₂ :: t₂).map CommitInfo.date) :=
        h.map CommitInfo.date
      have hlen : t₁.length = t₂.length := by
        have := h.length_eq
        simpa using this
      have hla : ((c₁ :: t₁).map CommitInfo.lines_added).sum =
          ((c₂ :: t₂).map CommitInfo.lines_added).sum :=
        (h.map CommitInfo.lines_added).sum_eq
      have hlr : ((c₁ :: t₁).map CommitInfo.lines_removed).sum =
          ((c₂ :: t₂).map CommitInfo.lines_removed).sum :=
        (h.map CommitInfo.lines_removed).sum_eq
      have hmin : minFold c₁.date (t₁.map CommitInfo.date) =
          minFold c₂.date (t₂.map CommitInfo.date) :=
        minFoldNE_perm hdates (by simp)
      have hmax : maxFold c₁.date (t₁.map CommitInfo.date) =
          maxFold c₂.date (t₂.map CommitInfo.date) :=
        maxFoldNE_perm hdates (by simp)
      simp only [List.map_cons, List.sum_cons] at hla hlr
      simp only [Option.some.injEq, ContributorStats.mk.injEq]
      exact ⟨by omega, by omega, by omega, hmin, hmax⟩

-- ======================================================================
-- Keys of the contributor map (HashMap key uniqueness)
-- ======================================================================

def contribKeys (m : List (String × ContributorStats)) : List String := m.map Prod.fst

theorem contribKeys_contribUpdate (m : List (String × ContributorStats)) (c : CommitInfo) :
    contribKeys (contribUpdate m c) =
      if c.author ∈ contribKeys m then contribKeys m
      else contribKeys m ++ [c.author] := by
  induction m with
  | nil => simp [contribUpdate, contribKeys]
  | cons p rest ih =>
    obtain ⟨k, v⟩ := p
    by_cases hk : k = c.author
    · have hmem : c.author ∈ contribKeys ((k, v) :: rest) := by
        simp [contribKeys, hk.symm]
      simp only [contribUpdate, if_pos hk, if_pos hmem]
      simp [contribKeys]
    · by_cases hmem : c.author ∈ contribKeys rest
      · have hmem2 : c.author ∈ contribKeys ((k, v) :: rest) := by
          show c.author ∈ k :: contribKeys rest
          exact List.mem_cons.mpr (Or.inr hmem)
        simp only [contribUpdate, if_neg hk, if_pos hmem2]
        show k :: contribKeys (contribUpdate rest c) = k :: contribKeys rest
        rw [ih, if_pos hmem]
      · have hmem2 : c.author ∉ contribKeys ((k, v) :: rest) := by
          intro h2
          have h3 : c.author ∈ k :: contribKeys rest := h2
          rcases List.mem_cons.mp h3 with h4 | h4
          · exact hk h4.symm
          · exact hmem h4
        simp only [contribUpdate, if_neg hk, if_neg hmem2]
        show k :: contribKeys (contribUpdate rest c) = (k :: contribKeys rest) ++ [c.author]
        rw [ih, if_neg hmem]
        rfl

theorem contribKeys_contribUpdate_nodup {m : List (String × ContributorStats)}
    (c : CommitInfo) (h : (contribKeys m).Nodup) :
    (contribKeys (contribUpdate m c)).Nodup := by
  rw [contribKeys_contribUpdate]
  by_cases hmem : c.author ∈ contribKeys m
  · simpa [hmem] using h
  · simp only [if_neg hmem]
    simp [List.nodup_append, h, hmem]

theorem foldl_add_commit_keys_nodup (s : RepositoryStats) (l : List CommitInfo)
    (h : (contribKeys s.contributors).Nodup) :
    (contribKeys (l.foldl RepositoryStats.add_commit s).contributors).Nodup := by
  induction l generalizing s with
  | nil => exact h
  | cons c t ih =>
    simp only [List.foldl_cons]
    exact ih (s.add_commit c) (contribKeys_contribUpdate_nodup c h)

theorem mem_iff_contribFind {m : List (String × ContributorStats)}
    (hn : (contribKeys m).Nodup) (k : String) (v : ContributorStats) :
    (k, v) ∈ m ↔ contribFind m k = some v := by
  induction m with
  | nil => simp [contribFind]
  | cons p rest ih =>
    obtain ⟨k', v'⟩ := p
    have hk'_notin : k' ∉ contribKeys rest := by
      simp only [contribKeys, List.map_cons, List.nodup_cons] at hn
      exact hn.1
    have hrest : (contribKeys rest).Nodup := by
      simp only [contribKeys, List.map_cons, List.nodup_cons] at hn
      exact hn.2
    by_cases hk : k' = k
    · subst hk
      constructor
      · intro h
        rcases List.mem_cons.mp h with h | h
        · have h2 : k' = k' ∧ v = v' := by
            rw [Prod.mk.injEq] at h
            exact h
          simp [contribFind, h2.2]
        · exact absurd (List.mem_map_of_mem Prod.fst h) hk'_notin
      · intro h
        have h2 : v' = v := by simpa [contribFind] using h
        exact List.mem_cons.mpr (Or.inl (by rw [h2]))
    · constructor
      · intro h
        rcases List.mem_cons.mp h with h | h
        · have h2 : k = k' ∧ v = v' := by
            rw [Prod.mk.injEq] at h
            exact h
          exact absurd h2.1.symm hk
        · have h2 := (ih hrest).mp h
          simp [contribFind, hk, h2]
      · intro h
        have h2 : contribFind rest k = some v := by simpa [contribFind, hk] using h
        exact List.mem_cons.mpr (Or.inr ((ih hrest).mpr h2))

theorem contrib_perm_of_find_eq {m₁ m₂ : List (String × ContributorStats)}
    (h₁ : (contribKeys m₁).Nodup) (h₂ : (contribKeys m₂).Nodup)
    (h : ∀ k, contribFind m₁ k = contribFind m₂ k) : m₁.Perm m₂ := by
  have hn₁ : m₁.Nodup := h₁.of_map Prod.fst
  have hn₂ : m₂.Nodup := h₂.of_map Prod.fst
  apply List.perm_of_nodup_nodup_toFinset_eq hn₁ hn₂
  apply Finset.ext
  intro p
  obtain ⟨k, v⟩ := p
  rw [List.mem_toFinset, List.mem_toFinset, mem_iff_contribFind h₁,
    mem_iff_contribFind h₂, h k]

-- ======================================================================
-- Claims C1, C2, C3
-- ======================================================================

def c1Commit : CommitInfo :=
  { hash := "h", author := "alice", email := "a@x", date := 50, message := ""
    lines_added := 0, lines_removed := 0, files_changed := 0 }

/-- C1: the claim states that on the very first folded record both
`first_commit_date` and `last_commit_date` are set to that record's date, so
that `last_commit_date` equals the maximum of the folded records' dates.
The code contradicts this: for an accumulator constructed at instant 100,
folding a single commit dated 50 sets `first_commit_date` to 50 as claimed,
but leaves `last_commit_date` at the construction instant 100, which is not
the maximum (50) of the folded records' dates.  The `last_commit_date`
branch of `add_commit` lacks the `total_commits == 1` disjunct that the
`first_commit_date` branch has. -/
theorem add_commit_first_record_last_date_bug :
    ((RepositoryStats.new 100 "repo").add_commit c1Commit).first_commit_date = 50 ∧
    ((RepositoryStats.new 100 "repo").add_commit c1Commit).last_commit_date = 100 ∧
    ¬ ((RepositoryStats.new 100 "repo").add_commit c1Commit).last_commit_date =
        maxFoldNE ((((RepositoryStats.new 100 "repo").add_commit c1Commit).commits).map
          CommitInfo.date) := by
  decide

/-- C2: after any sequence of `add_commit` calls on a freshly constructed
`RepositoryStats`, `total_commits` equals the length of the stored commits
list, `total_lines_added` / `total_lines_removed` equal the sums of the
stored records' line counts, and each contributor's `commits` field equals
the count of stored records whose author name matches that contributor's
key. -/
theorem add_commit_invariants (now : Int) (path : String) (l : List CommitInfo)
    (name : String) (cs : ContributorStats) :
    (l.foldl RepositoryStats.add_commit (RepositoryStats.new now path)).total_commits =
      (l.foldl RepositoryStats.add_commit (RepositoryStats.new now path)).commits.length ∧
    (l.foldl RepositoryStats.add_commit (RepositoryStats.new now path)).total_lines_added =
      (((l.foldl RepositoryStats.add_commit (RepositoryStats.new now path)).commits).map
        CommitInfo.lines_added).sum ∧
    (l.foldl RepositoryStats.add_commit (RepositoryStats.new now path)).total_lines_removed =
      (((l.foldl RepositoryStats.add_commit (RepositoryStats.new now path)).commits).map
        CommitInfo.lines_removed).sum ∧
    (contribFind (l.foldl RepositoryStats.add_commit (RepositoryStats.new now path)).contributors
        name = some cs →
      cs.commits = ((l.foldl RepositoryStats.add_commit
        (RepositoryStats.new now path)).commits).countP (fun c => c.author == name)) := by
  have hcommits :
      (l.foldl RepositoryStats.add_commit (RepositoryStats.new now path)).commits = l := by
    rw [foldl_add_commit_commits]
    exact List.nil_append l
  refine ⟨?_, ?_, ?_, ?_⟩
  · rw [foldl_add_commit_total, hcommits]
    show 0 + l.length = l.length
    omega
  · rw [foldl_add_commit_lines_added, hcommits]
    show 0 + (l.map CommitInfo.lines_added).sum = _
    omega
  · rw [foldl_add_commit_lines_removed, hcommits]
    show 0 + (l.map CommitInfo.lines_removed).sum = _
    omega
  · intro h
    rw [foldl_add_commit_contribFind] at h
    have h0 : contribFind (RepositoryStats.new now path).contributors name = none := rfl
    rw [h0] at h
    rcases hfl : l.filter (fun c => c.author == name) with _ | ⟨c, t⟩
    · rw [hfl] at h
      exact absurd h (by simp)
    · rw [hfl, foldl_contribStep_char] at h
      injection h with h2
      rw [hcommits, List.countP_eq_length_filter, hfl, ← h2]
      simp [List.length_cons]
      omega

/-- C3: folding the same multiset of commit records (in any two orders) into
a freshly constructed accumulator yields identical repository totals,
identical global first/last commit timestamps and identical per-contributor
rollups (the contributor maps are permutations of each other, i.e. equal as
key-value maps); only the stored commits lists may differ in order (they are
permutations of each other). -/
theorem fold_add_commit_order_independent (now : Int) (path : String)
    {l₁ l₂ : List CommitInfo} (h : l₁.Perm l₂) :
    (l₁.foldl RepositoryStats.add_commit (RepositoryStats.new now path)).total_commits =
      (l₂.foldl RepositoryStats.add_commit (RepositoryStats.new now path)).total_commits ∧
    (l₁.foldl RepositoryStats.add_commit (RepositoryStats.new now path)).total_lines_added =
      (l₂.foldl RepositoryStats.add_commit (RepositoryStats.new now path)).total_lines_added ∧
    (l₁.foldl RepositoryStats.add_commit (RepositoryStats.new now path)).total_lines_removed =
      (l₂.foldl RepositoryStats.add_commit (RepositoryStats.new now path)).total_lines_removed ∧
    (l₁.foldl RepositoryStats.add_commit (RepositoryStats.new now path)).first_commit_date =
      (l₂.foldl RepositoryStats.add_commit (RepositoryStats.new now path)).first_commit_date ∧
    (l₁.foldl RepositoryStats.add_commit (RepositoryStats.new now path)).last_commit_date =
      (l₂.foldl RepositoryStats.add_commit (RepositoryStats.new now path)).last_commit_date ∧
    ((l₁.foldl RepositoryStats.add_commit (RepositoryStats.new now path)).contributors).Perm
      ((l₂.foldl RepositoryStats.add_commit (RepositoryStats.new now path)).contributors) ∧
    ((l₁.foldl RepositoryStats.add_commit (RepositoryStats.new now path)).commits).Perm
      ((l₂.foldl RepositoryStats.add_commit (RepositoryStats.new now path)).commits) := by
  refine ⟨?_, ?_, ?_, ?_, ?_, ?_, ?_⟩
  · rw [foldl_add_commit_total, foldl_add_commit_total, h.length_eq]
  · rw [foldl_add_commit_lines_added, foldl_add_commit_lines_added,
      (h.map CommitInfo.lines_added).sum_eq]
  · rw [foldl_add_commit_lines_removed, foldl_add_commit_lines_removed,
      (h.map CommitInfo.lines_removed).sum_eq]
  · rw [foldl_add_commit_first_fresh, foldl_add_commit_first_fresh]
    cases l₁ with
    | nil =>
      have h2 : l₂ = [] := h.symm.eq_nil
      subst h2
      rfl
    | cons c₁ t₁ =>
      cases l₂ with
      | nil => exact absurd h.eq_nil (by simp)
      | cons c₂ t₂ =>
        simp only [List.map_cons]
        exact minFoldNE_perm (h.map CommitInfo.date) (by simp)
  · rw [foldl_add_commit_last, foldl_add_commit_last]
    exact maxFold_perm _ (h.map CommitInfo.date)
  · apply contrib_perm_of_find_eq
    · exact foldl_add_commit_keys_nodup _ _ (by simp [contribKeys, RepositoryStats.new])
    · exact foldl_add_commit_keys_nodup _ _ (by simp [contribKeys, RepositoryStats.new])
    · intro k
      rw [foldl_add_commit_contribFind, foldl_add_commit_contribFind]
      show (l₁.filter _).foldl contribStep none = (l₂.filter _).foldl contribStep none
      exact foldl_contribStep_perm (h.filter (fun c => c.author == k))
  · rw [foldl_add_commit_commits, foldl_add_commit_commits]
    simpa using h

def wCommitA : CommitInfo :=
  { hash := "a1", author := "alice", email := "a@x", date := 5, message := "m1"
    lines_added := 1, lines_removed := 2, files_changed := 1 }

def wCommitB : CommitInfo :=
  { hash := "b1", author := "bob", email := "b@x", date := 7, message := "m2"
    lines_added := 4, lines_removed := 0, files_changed := 2 }

def wStatsFwd : RepositoryStats :=
  [wCommitA, wCommitB].foldl RepositoryStats.add_commit (RepositoryStats.new 100 "r")

def wStatsRev : RepositoryStats :=
  [wCommitB, wCommitA].foldl RepositoryStats.add_commit (RepositoryStats.new 100 "r")

/-- Witness for C3 at a concrete pair of opposite-order folds. -/
theorem fold_add_commit_order_independent_witness :
    ([wCommitA, wCommitB] : List CommitInfo).Perm [wCommitB, wCommitA] ∧
    (wStatsFwd.total_commits = wStatsRev.total_commits ∧
     wStatsFwd.total_lines_added = wStatsRev.total_lines_added ∧
     wStatsFwd.total_lines_removed = wStatsRev.total_lines_removed ∧
     wStatsFwd.first_commit_date = wStatsRev.first_commit_date ∧
     wStatsFwd.last_commit_date = wStatsRev.last_commit_date ∧
     wStatsFwd.contributors.Perm wStatsRev.contributors ∧
     wStatsFwd.commits.Perm wStatsRev.commits) :=
  ⟨by decide, fold_add_commit_order_independent 100 "r" (by decide)⟩

-- ======================================================================
-- src/git.rs
-- ======================================================================

deriving instance DecidableEq for Except

/-- Smallest Unix timestamp (seconds) that chrono's
`DateTime::from_timestamp` accepts; earlier values yield `None`. -/
def chronoTsMin : Int := -8334601228800

/-- Largest Unix timestamp (seconds) that chrono's
`DateTime::from_timestamp` accepts; later values yield `None`. -/
def chronoTsMax : Int := 8210266876799

/-- `git_time_to_datetime` (src/git.rs lines 173-178): convert a git
timestamp via `DateTime::from_timestamp(time, 0)`, falling back to
`Utc::now()` (the ambient instant `now`) when the conversion fails because
the timestamp is out of chrono's representable range. -/
def git_time_to_datetime (now : Int) (time : Int) : Int :=
  if chronoTsMin ≤ time ∧ time ≤ chronoTsMax then time else now

/-- One entry yielded by the revision walker: the commit id (`git2::Oid`,
modelled as `Nat`) and `commit.time().seconds()` (the committer timestamp). -/
structure WalkCommit where
  oid : Nat
  time : Int
deriving DecidableEq

/-- The data `process_commit` reads off a resolved `git2::Commit`.
`authorName`, `authorEmail` come from `commit.author()` (absent entries are
`None`), `message` from `commit.message()`, `authorTime` is
`commit.author().when()` (the author timestamp) and `commitTime` is
`commit.time()` (which in git2 is the committer timestamp). -/
structure RawCommit where
  hash : String
  authorName : Option String
  authorEmail : Option String
  message : Option String
  authorTime : Int
  commitTime : Int
deriving DecidableEq

/-- A repository handle, exposing exactly what the analysed code consumes:
the revision walk from HEAD (entries may fail to resolve, modelling
`oid_result?` / `find_commit` errors inside `get_commits`), commit object
resolution for `process_commit`, and the diff-statistics computation
`get_commit_diff_stats` (whose tree/diff failures surface as errors). -/
structure GitRepo where
  walk : List (Except String WalkCommit)
  find : Nat → Except String RawCommit
  diffStats : Nat → Except String (Nat × Nat × Nat)

/-- `if let Some(start) = start_date { if dt < start { continue; } }` -/
def beforeStart (dt : Int) : Option Int → Bool
  | some start => decide (dt < start)
  | none => false

/-- `if let Some(end) = end_date { if dt > end { continue; } }` -/
def afterEnd (dt : Int) : Option Int → Bool
  | some e => decide (dt > e)
  | none => false

/-- `get_commits` (src/git.rs lines 50-85): walk the revision list, resolve
each commit, and keep the ids whose timestamp passes the optional
inclusive date filters.  A failure to obtain an OID or resolve a commit
aborts the whole function with an error (the `?` operator). -/
def get_commits (now : Int) (start_date end_date : Option Int) :
    List (Except String WalkCommit) → Except String (List Nat)
  | [] => .ok []
  | .error msg :: _ => .error msg
  | .ok c :: rest =>
    let dt := git_time_to_datetime now c.time
    if beforeStart dt start_date then get_commits now start_date end_date rest
    else if afterEnd dt end_date then get_commits now start_date end_date rest
    else (get_commits now start_date end_date rest).map (fun commits => c.oid :: commits)

/-- `process_commit` (src/git.rs lines 88-112): resolve the commit, read
author name/email with `"Unknown"` fallbacks, message with `""` fallback,
the hash, the date from `commit.time()` via `git_time_to_datetime`, then
attach the diff statistics. -/
def process_commit (now : Int) (repo : GitRepo) (commit_id : Nat) : Except String CommitInfo :=
  match repo.find commit_id with
  | .error msg => .error msg
  | .ok commit =>
    let name := commit.authorName.getD "Unknown"
    let email := commit.authorEmail.getD "Unknown"
    let message := commit.message.getD ""
    let hash := commit.hash
    let date := git_time_to_datetime now commit.commitTime
    match repo.diffStats commit_id with
    | .error msg => .error msg
    | .ok (lines_added, lines_removed, files_changed) =>
      .ok { hash := hash, author := name, email := email, date := date, message := message
            lines_added := lines_added, lines_removed := lines_removed
            files_changed := files_changed }

/-- The processing loop of `analyze_repository` (src/git.rs lines 39-44):
`Ok` records are folded with `add_commit`, `Err` results are reported to
stderr and the commit is skipped. -/
def fold_commits (now : Int) (repo : GitRepo) (stats : RepositoryStats) :
    List Nat → RepositoryStats
  | [] => stats
  | commit_id :: rest =>
    match process_commit now repo commit_id with
    | .ok commit_info => fold_commits now repo (stats.add_commit commit_info) rest
    | .error _ => fold_commits now repo stats rest

-- ----------------------------------------------------------------------
-- parse_date (src/git.rs lines 181-187): chrono's
-- NaiveDate::parse_from_str(date_str, "%Y-%m-%d") followed by
-- and_hms_opt(0,0,0) and Utc.from_utc_datetime.
-- ----------------------------------------------------------------------

/-- Maximal leading run of ASCII digits. -/
def takeDigits : List Char → List Char × List Char
  | [] => ([], [])
  | c :: rest =>
    if c.isDigit then
      let p := takeDigits rest
      (c :: p.1, p.2)
    else ([], c :: rest)

def digitsVal (ds : List Char) : Nat :=
  ds.foldl (fun a c => a * 10 + (c.toNat - 48)) 0

def isLeapYear (y : Int) : Bool :=
  (y % 4 == 0 && y % 100 != 0) || (y % 400 == 0)

def daysInMonth (y : Int) (m : Nat) : Nat :=
  if m = 2 then (if isLeapYear y then 29 else 28)
  else if m = 4 ∨ m = 6 ∨ m = 9 ∨ m = 11 then 30
  else 31

/-- Scan of the `%Y-%m-%d` format: an optionally signed year digit run, a
literal dash, a 1-2 digit month, a literal dash, a 1-2 digit day, end of
input.  Any other shape is a parse error (`None`). -/
def parseYMD (s : String) : Option (Int × Nat × Nat) :=
  let p0 : Bool × List Char :=
    match s.data with
    | '-' :: rest => (true, rest)
    | '+' :: rest => (false, rest)
    | cs => (false, cs)
  let py := takeDigits p0.2
  if py.1.isEmpty then none
  else
    match py.2 with
    | '-' :: cs3 =>
      let pm := takeDigits cs3
      if pm.1.isEmpty || decide (pm.1.length > 2) then none
      else
        match pm.2 with
        | '-' :: cs5 =>
          let pd := takeDigits cs5
          if pd.1.isEmpty || decide (pd.1.length > 2) || !pd.2.isEmpty then none
          else
            let y : Int := if p0.1 then -(digitsVal py.1 : Int) else (digitsVal py.1 : Int)
            some (y, digitsVal pm.1, digitsVal pd.1)
        | _ => none
    | _ => none

/-- chrono's `NaiveDate` year range (approximately ±262,000 years). -/
def validYMD (y : Int) (m d : Nat) : Bool :=
  decide (-262143 ≤ y) && decide (y ≤ 262142) && decide (1 ≤ m) && decide (m ≤ 12) &&
    decide (1 ≤ d) && decide (d ≤ daysInMonth y m)

/-- Days since 1970-01-01 of a proleptic Gregorian date (Hinnant's
days-from-civil computation; `/` and `%` on `Int` are floor division and
floor modulus here, which matches the era arithmetic exactly). -/
def daysFromCivil (y : Int) (m d : Nat) : Int :=
  let yAdj : Int := if m ≤ 2 then y - 1 else y
  let era : Int := yAdj / 400
  let yoe : Int := yAdj - era * 400
  let mShift : Int := if 2 < m then (m : Int) - 3 else (m : Int) + 9
  let doy : Int := (153 * mShift + 2) / 5 + (d : Int) - 1
  let doe : Int := yoe * 365 + yoe / 4 - yoe / 100 + doy
  era * 146097 + doe - 719468

/-- `parse_date` (src/git.rs lines 181-187): parse`YYYY-MM-DD`, reject any
other shape or an out-of-range calendar date, and return the UTC-midnight
instant of the parsed day. -/
def parse_date (s : String) : Except String Int :=
  match parseYMD s with
  | none => .error "Failed to parse date, expected format YYYY-MM-DD"
  | some (y, m, d) =>
    if validYMD y m d then .ok (daysFromCivil y m d * 86400)
    else .error "Failed to parse date, expected format YYYY-MM-DD"

-- ----------------------------------------------------------------------
-- analyze_repository (src/git.rs lines 12-47)
-- ----------------------------------------------------------------------

/-- The stages at which `analyze_repository` can fail fatally. -/
inductive AnalyzeError where
  | dateParse (msg : String)
  | openFailed (msg : String)
  | traversal (msg : String)
deriving DecidableEq

/-- The `match start_date_str { Some(s) => Some(parse_date(s)?), None => None }`
blocks at the top of `analyze_repository`. -/
def parseOptDate : Option String → Except AnalyzeError (Option Int)
  | none => .ok none
  | some ds =>
    match parse_date ds with
    | .ok d => .ok (some d)
    | .error msg => .error (.dateParse msg)

/-- `analyze_repository` (src/git.rs lines 12-47): parse the start filter,
parse the end filter, open the repository, create the fresh accumulator,
run `get_commits`, then fold the processed commits.  `repoOpen` stands for
the outcome of `Repository::open`. -/
def analyze_repository (now : Int) (repoOpen : Except String GitRepo) (path : String)
    (start_date_str end_date_str : Option String) : Except AnalyzeError RepositoryStats :=
  match parseOptDate start_date_str with
  | .error e => .error e
  | .ok start_date =>
    match parseOptDate end_date_str with
    | .error e => .error e
    | .ok end_date =>
      match repoOpen with
      | .error msg => .error (.openFailed msg)
      | .ok repo =>
        let stats := RepositoryStats.new now path
        match get_commits now start_date end_date repo.walk with
        | .error msg => .error (.traversal msg)
        | .ok commits => .ok (fold_commits now repo stats commits)

-- ======================================================================
-- Claim C4: date-window filtering of the walker
-- ======================================================================

theorem beforeStart_false_iff (dt : Int) (s : Option Int) :
    beforeStart dt s = false ↔ ∀ st, s = some st → st ≤ dt := by
  cases s with
  | none => simp [beforeStart]
  | some st =>
    simp only [beforeStart, decide_eq_false_iff_not, Option.some.injEq]
    constructor
    · intro h st2 hst2
      subst hst2
      omega
    · intro h
      have := h st rfl
      omega

theorem afterEnd_false_iff (dt : Int) (e : Option Int) :
    afterEnd dt e = false ↔ ∀ en, e = some en → dt ≤ en := by
  cases e with
  | none => simp [afterEnd]
  | some en =>
    simp only [afterEnd, decide_eq_false_iff_not, Option.some.injEq]
    constructor
    · intro h en2 hen2
      subst hen2
      omega
    · intro h
      have := h en rfl
      omega

theorem get_commits_map_ok (now : Int) (s e : Option Int) (walk : List WalkCommit) :
    get_commits now s e (walk.map Except.ok) =
      .ok ((walk.filter (fun c => !(beforeStart (git_time_to_datetime now c.time) s) &&
        !(afterEnd (git_time_to_datetime now c.time) e))).map WalkCommit.oid) := by
  induction walk with
  | nil => rfl
  | cons c t ih =>
    simp only [List.map_cons, get_commits]
    by_cases hb : beforeStart (git_time_to_datetime now c.time) s
    · simp [hb, ih, List.filter_cons]
    · by_cases ha : afterEnd (git_time_to_datetime now c.time) e
      · simp [hb, ha, ih, List.filter_cons]
      · simp [hb, ha, ih, List.filter_cons, Except.map]

/-- C4: over a fully resolvable walk, the set of commit ids produced by
`get_commits` is exactly the set of walked commits whose (fallback-adjusted)
timestamp lies inside the optional inclusive `[start, end]` window; a
commit strictly earlier than the start bound or strictly later than the end
bound is skipped entirely. -/
theorem get_commits_window (now : Int) (walk : List WalkCommit)
    (start_date end_date : Option Int) (oids : List Nat) (o : Nat)
    (h : get_commits now start_date end_date (walk.map Except.ok) = .ok oids) :
    o ∈ oids ↔ ∃ c ∈ walk, c.oid = o ∧
      (∀ st, start_date = some st → st ≤ git_time_to_datetime now c.time) ∧
      (∀ en, end_date = some en → git_time_to_datetime now c.time ≤ en) := by
  rw [get_commits_map_ok] at h
  injection h with h2
  subst h2
  simp only [List.mem_map, List.mem_filter, Bool.and_eq_true, Bool.not_eq_true']
  constructor
  · rintro ⟨c, ⟨hcw, hb, ha⟩, hoid⟩
    exact ⟨c, hcw, hoid, (beforeStart_false_iff _ _).mp hb, (afterEnd_false_iff _ _).mp ha⟩
  · rintro ⟨c, hcw, hoid, hs, he⟩
    exact ⟨c, ⟨hcw, (beforeStart_false_iff _ _).mpr hs, (afterEnd_false_iff _ _).mpr he⟩, hoid⟩

def wWalk : List WalkCommit := [⟨1, 100⟩, ⟨2, 200⟩, ⟨3, 300⟩]

/-- Witness for C4 on a concrete three-commit walk with window [150, 250]. -/
theorem get_commits_window_witness :
    get_commits 0 (some 150) (some 250) (wWalk.map Except.ok) = .ok [2] ∧
    (2 ∈ [2] ↔ ∃ c ∈ wWalk, c.oid = 2 ∧
      (∀ st, (some 150 : Option Int) = some st → st ≤ git_time_to_datetime 0 c.time) ∧
      (∀ en, (some 250 : Option Int) = some en → git_time_to_datetime 0 c.time ≤ en)) :=
  ⟨by decide, get_commits_window 0 wWalk (some 150) (some 250) [2] 2 (by decide)⟩

-- ======================================================================
-- Claim C6: per-commit failure handling
-- ======================================================================

/-- C6 (amended): in the processing loop, a commit whose extraction fails
(`process_commit` returns an error: resolution, metadata or diff failure)
is skipped and the loop continues, so the final accumulator is exactly the
fold of `add_commit` over the successfully processed records.  However, a
commit that fails to resolve during the initial revision walk is not
skipped: `get_commits` aborts with that error no matter how many commits
preceded it. -/
theorem per_commit_failures_skipped (now : Int) (repo : GitRepo) (stats : RepositoryStats)
    (oids : List Nat) (pre : List WalkCommit) (msg : String)
    (rest : List (Except String WalkCommit)) (s e : Option Int) :
    fold_commits now repo stats oids =
      (oids.filterMap (fun commit_id => (process_commit now repo commit_id).toOption)).foldl
        RepositoryStats.add_commit stats ∧
    get_commits now s e (pre.map Except.ok ++ .error msg :: rest) = .error msg := by
  constructor
  · induction oids generalizing stats with
    | nil => rfl
    | cons o t ih =>
      simp only [fold_commits, List.filterMap_cons]
      cases hp : process_commit now repo o with
      | ok info =>
        simp only [hp, Except.toOption]
        rw [ih (stats.add_commit info)]
        rfl
      | error m =>
        simp only [hp, Except.toOption]
        exact ih stats
  · induction pre with
    | nil => rfl
    | cons c t ih =>
      simp only [List.map_cons, List.cons_append, get_commits]
      by_cases hb : beforeStart (git_time_to_datetime now c.time) s
      · simp [hb, ih]
      · by_cases ha : afterEnd (git_time_to_datetime now c.time) e
        · simp [hb, ha, ih]
        · simp [hb, ha, ih, Except.map]

def c6Repo : GitRepo :=
  { walk := [.error "Failed to find commit"]
    find := fun _ => .error "unused"
    diffStats := fun _ => .error "unused" }

/-- C6 counterexample: the claim says a failure to resolve a specific commit
object is logged and the commit skipped while traversal continues; but when
the failure occurs in `get_commits` (src/git.rs lines 61-63), the whole
analysis aborts with a traversal error and produces no accumulator at all,
instead of succeeding with that commit skipped. -/
theorem walk_resolution_failure_aborts :
    analyze_repository 0 (.ok c6Repo) "p" none none =
      .error (.traversal "Failed to find commit") ∧
    ¬ analyze_repository 0 (.ok c6Repo) "p" none none =
        .ok (RepositoryStats.new 0 "p") := by
  decide

-- ======================================================================
-- Claim C7: malformed date filters fail before traversal
-- ======================================================================

/-- C7: if a supplied start or end date string is malformed (rejected by
`parse_date`), `analyze_repository` returns that date-parse error whatever
the repository argument is — even if the repository would fail to open —
so the failure happens before the repository is opened and before any
traversal, and no accumulator state is produced. -/
theorem analyze_repository_malformed_date (now : Int) (repoOpen : Except String GitRepo)
    (path : String) (ds : String) (msg : String)
    (h : parse_date ds = .error msg) :
    (∀ other, analyze_repository now repoOpen path (some ds) other =
      .error (.dateParse msg)) ∧
    (∀ startOk d, parse_date startOk = .ok d →
      analyze_repository now repoOpen path (some startOk) (some ds) =
        .error (.dateParse msg)) ∧
    analyze_repository now repoOpen path none (some ds) = .error (.dateParse msg) := by
  refine ⟨?_, ?_, ?_⟩
  · intro other
    simp [analyze_repository, parseOptDate, h]
  · intro startOk d h0
    simp [analyze_repository, parseOptDate, h, h0]
  · simp [analyze_repository, parseOptDate, h]

/-- Witness for C7 at the malformed string "2024/01/01" (with a repository
that would not even open, and a well-formed other bound). -/
theorem analyze_repository_malformed_date_witness :
    parse_date "2024/01/01" = .error "Failed to parse date, expected format YYYY-MM-DD" ∧
    ((∀ other, analyze_repository 0 (.error "no repo") "p" (some "2024/01/01") other =
        .error (.dateParse "Failed to parse date, expected format YYYY-MM-DD")) ∧
     (∀ startOk d, parse_date startOk = .ok d →
        analyze_repository 0 (.error "no repo") "p" (some startOk) (some "2024/01/01") =
          .error (.dateParse "Failed to parse date, expected format YYYY-MM-DD")) ∧
     analyze_repository 0 (.error "no repo") "p" none (some "2024/01/01") =
       .error (.dateParse "Failed to parse date, expected format YYYY-MM-DD")) :=
  ⟨by decide,
   analyze_repository_malformed_date 0 (.error "no repo") "p" "2024/01/01"
     "Failed to parse date, expected format YYYY-MM-DD" (by decide)⟩

-- ======================================================================
-- Claim C8: extractor fallbacks and the timestamp source
-- ======================================================================

def c8Raw : RawCommit :=
  { hash := "h", authorName := some "alice", authorEmail := some "a@x"
    message := some "m", authorTime := 1, commitTime := 2 }

def c8Repo : GitRepo :=
  { walk := [], find := fun _ => .ok c8Raw, diffStats := fun _ => .ok (0, 0, 0) }

/-- C8 counterexample: the claim says the record's timestamp is the commit's
author time; the code reads `commit.time()`, which is the committer time.
For a commit whose author time is 1 and committer time is 2 (both inside
chrono's representable range, so no fallback is involved), the produced
record carries 2, not 1. -/
theorem process_commit_author_time_cex :
    (process_commit 0 c8Repo 7).map CommitInfo.date = .ok c8Raw.commitTime ∧
    ¬ (process_commit 0 c8Repo 7).map CommitInfo.date = .ok c8Raw.authorTime ∧
    ¬ c8Raw.authorTime = c8Raw.commitTime ∧
    chronoTsMin ≤ c8Raw.authorTime ∧ c8Raw.authorTime ≤ chronoTsMax := by
  decide

/-- C8 (amended): for every resolvable commit, `process_commit` produces a
record whose author name falls back to "Unknown" when absent, whose email
falls back to "Unknown" when absent, whose message falls back to the empty
string when absent, and whose timestamp is the commit's committer time
(`commit.time()`) converted to UTC — an out-of-range timestamp being
replaced by the current wall-clock time instead of failing the commit. -/
theorem process_commit_fields (now : Int) (repo : GitRepo) (commit_id : Nat)
    (raw : RawCommit) (ds : Nat × Nat × Nat)
    (hfind : repo.find commit_id = .ok raw)
    (hdiff : repo.diffStats commit_id = .ok ds) :
    process_commit now repo commit_id = .ok
      { hash := raw.hash
        author := raw.authorName.getD "Unknown"
        email := raw.authorEmail.getD "Unknown"
        date := git_time_to_datetime now raw.commitTime
        message := raw.message.getD ""
        lines_added := ds.1, lines_removed := ds.2.1, files_changed := ds.2.2 } ∧
    (chronoTsMin ≤ raw.commitTime ∧ raw.commitTime ≤ chronoTsMax →
      git_time_to_datetime now raw.commitTime = raw.commitTime) ∧
    (¬ (chronoTsMin ≤ raw.commitTime ∧ raw.commitTime ≤ chronoTsMax) →
      git_time_to_datetime now raw.commitTime = now) := by
  refine ⟨?_, ?_, ?_⟩
  · obtain ⟨la, lr, fc⟩ := ds
    simp [process_commit, hfind, hdiff]
  · intro hr
    simp [git_time_to_datetime, hr]
  · intro hr
    simp [git_time_to_datetime, hr]

def c8RawNone : RawCommit :=
  { hash := "h2", authorName := none, authorEmail := none, message := none
    authorTime := 5, commitTime := 9 }

def c8RepoNone : GitRepo :=
  { walk := [], find := fun _ => .ok c8RawNone, diffStats := fun _ => .ok (1, 2, 3) }

/-- Witness for the amended C8 on a commit with all metadata absent. -/
theorem process_commit_fields_witness :
    c8RepoNone.find 0 = .ok c8RawNone ∧
    c8RepoNone.diffStats 0 = .ok (1, 2, 3) ∧
    (process_commit 11 c8RepoNone 0 = .ok
      { hash := c8RawNone.hash
        author := c8RawNone.authorName.getD "Unknown"
        email := c8RawNone.authorEmail.getD "Unknown"
        date := git_time_to_datetime 11 c8RawNone.commitTime
        message := c8RawNone.message.getD ""
        lines_added := ((1, 2, 3) : Nat × Nat × Nat).1
        lines_removed := ((1, 2, 3) : Nat × Nat × Nat).2.1
        files_changed := ((1, 2, 3) : Nat × Nat × Nat).2.2 } ∧
     (chronoTsMin ≤ c8RawNone.commitTime ∧ c8RawNone.commitTime ≤ chronoTsMax →
       git_time_to_datetime 11 c8RawNone.commitTime = c8RawNone.commitTime) ∧
     (¬ (chronoTsMin ≤ c8RawNone.commitTime ∧ c8RawNone.commitTime ≤ chronoTsMax) →
       git_time_to_datetime 11 c8RawNone.commitTime = 11)) :=
  ⟨rfl, rfl, process_commit_fields 11 c8RepoNone 0 c8RawNone (1, 2, 3) rfl rfl⟩

-- ======================================================================
-- Claim C5: root-commit diff statistics
-- ======================================================================

/-- A (text) file of a commit tree: path and content lines. -/
structure TreeFile where
  path : String
  lines : List String
deriving DecidableEq

/-- The stream of `line.origin()` characters that libgit2 emits for
`diff_tree_to_tree(None, Some(tree))` — the root-commit case of
`get_commit_diff_stats`: every file of the tree is one `Added` delta and
every line of every file is reported exactly once with origin `'+'`
(blank lines included); nothing is reported with origin `'-'`. -/
def diffEmptyToTree (tree : List TreeFile) : List Char :=
  (tree.map (fun f => f.lines.map (fun _ => '+'))).flatten

/-- The line callback of `get_commit_diff_stats`: `'+'` increments
`lines_added`, `'-'` increments `lines_removed`, all other origin kinds
are ignored. -/
def diffLineStep (p : Nat × Nat) (o : Char) : Nat × Nat :=
  if o = '+' then (p.1 + 1, p.2)
  else if o = '-' then (p.1, p.2 + 1)
  else p

def countDiffLines (origins : List Char) : Nat × Nat :=
  origins.foldl diffLineStep (0, 0)

/-- `get_commit_diff_stats` (src/git.rs lines 115-170) specialised to a root
commit (`parent_count() == 0`): `files_changed = diff.deltas().len()` is the
number of files, and the line counters come from the origin stream. -/
def get_commit_diff_stats_root (tree : List TreeFile) : Nat × Nat × Nat :=
  let files_changed := tree.length
  let counts := countDiffLines (diffEmptyToTree tree)
  (counts.1, counts.2, files_changed)

/-- Modelled from the spec: "total non-blank lines added by that commit" —
the number of added lines containing some non-whitespace character. -/
def nonBlankAddedLines (tree : List TreeFile) : Nat :=
  (((tree.map TreeFile.lines).flatten).filter
    (fun s => !(s.data.all (fun ch => ch == ' ' || ch == '\t')))).length

def c5Tree : List TreeFile := [{ path := "f", lines := ["a", "", "b"] }]

/-- C5 counterexample: for a root commit adding one file with lines
"a", "" and "b", the diff statistics are `lines_added = 3`,
`lines_removed = 0`, while the total number of non-blank added lines is 2 —
so `lines_added` does not equal the non-blank count the claim states. -/
theorem root_diff_nonblank_cex :
    (get_commit_diff_stats_root c5Tree).1 = 3 ∧
    nonBlankAddedLines c5Tree = 2 ∧
    ¬ ((get_commit_diff_stats_root c5Tree).2.1 = 0 ∧
       (get_commit_diff_stats_root c5Tree).1 = nonBlankAddedLines c5Tree) := by
  decide

theorem foldl_diffLineStep_all_plus (origins : List Char)
    (h : ∀ o ∈ origins, o = '+') (p : Nat × Nat) :
    origins.foldl diffLineStep p = (p.1 + origins.length, p.2) := by
  induction origins generalizing p with
  | nil => simp
  | cons o t ih =>
    have ho : o = '+' := h o (List.mem_cons.mpr (Or.inl rfl))
    have ht : ∀ x ∈ t, x = '+' := fun x hx => h x (List.mem_cons.mpr (Or.inr hx))
    subst ho
    simp only [List.foldl_cons, diffLineStep, if_pos rfl]
    rw [ih ht]
    simp [List.length_cons]
    omega

theorem diffEmptyToTree_all_plus (tree : List TreeFile) :
    ∀ o ∈ diffEmptyToTree tree, o = '+' := by
  intro o ho
  simp only [diffEmptyToTree, List.mem_flatten, List.mem_map] at ho
  obtain ⟨l, ⟨f, _, hl⟩, hol⟩ := ho
  subst hl
  obtain ⟨x, _, hx⟩ := List.mem_map.mp hol
  exact hx.symm

theorem diffEmptyToTree_length (tree : List TreeFile) :
    (diffEmptyToTree tree).length = ((tree.map TreeFile.lines).flatten).length := by
  induction tree with
  | nil => rfl
  | cons f t ih =>
    simp only [diffEmptyToTree, List.map_cons, List.flatten_cons, List.length_append,
      List.length_map]
    simp only [diffEmptyToTree] at ih
    rw [ih]

/-- C5 (amended): for every root commit, the diff is computed against an
empty tree and the resulting statistics satisfy `lines_removed = 0` and
`lines_added` = the total number of lines added by the commit (counting
blank lines too, not only non-blank ones); `files_changed` is the number
of added files. -/
theorem root_diff_stats (tree : List TreeFile) :
    (get_commit_diff_stats_root tree).1 = ((tree.map TreeFile.lines).flatten).length ∧
    (get_commit_diff_stats_root tree).2.1 = 0 ∧
    (get_commit_diff_stats_root tree).2.2 = tree.length := by
  have hc : countDiffLines (diffEmptyToTree tree) =
      ((0 : Nat) + (diffEmptyToTree tree).length, (0 : Nat)) :=
    foldl_diffLineStep_all_plus _ (diffEmptyToTree_all_plus tree) (0, 0)
  refine ⟨?_, ?_, rfl⟩
  · show (countDiffLines (diffEmptyToTree tree)).1 = _
    rw [hc, diffEmptyToTree_length]
    simp
  · show (countDiffLines (diffEmptyToTree tree)).2 = 0
    rw [hc]

-- ======================================================================
-- src/db.rs
-- ======================================================================

structure RepoRow where
  id : Int
  path : String
  total_commits : Nat
  total_lines_added : Nat
  total_lines_removed : Nat
  first_commit_date : Int
  last_commit_date : Int
deriving DecidableEq

structure ContributorRow where
  repository_id : Int
  name : String
  email : String
  commits : Nat
  lines_added : Nat
  lines_removed : Nat
  first_commit_date : Int
  last_commit_date : Int
deriving DecidableEq

structure CommitRow where
  repository_id : Int
  hash : String
  author : String
  email : String
  date : Int
  message : String
  lines_added : Nat
  lines_removed : Nat
  files_changed : Nat
deriving DecidableEq

/-- The three tables created by `init_db`, plus the AUTOINCREMENT counter of
`repositories.id`.  Rows are kept in insertion order; date columns are kept
as the instants themselves (`to_rfc3339` followed by `parse_from_rfc3339`
is an exact round trip for UTC datetimes, and RFC 3339 strings of a common
era order lexicographically exactly as their instants do, so `ORDER BY date
DESC` on the TEXT column is modelled as ordering by the instant). -/
structure Database where
  repositories : List RepoRow
  contributors : List ContributorRow
  commits : List CommitRow
  next_repo_id : Int
deriving DecidableEq

/-- The email lookup in `save_stats` (src/db.rs lines 96-100):
`stats.commits.iter().find(|c| c.author == *name).map(|c| c.email.clone()).unwrap_or_default()`. -/
def contributorEmail (stats : RepositoryStats) (name : String) : String :=
  ((stats.commits.find? (fun commit => commit.author == name)).map CommitInfo.email).getD ""

/-- The repositories row `save_stats` inserts. -/
def repoRowOf (repo_id : Int) (stats : RepositoryStats) : RepoRow :=
  { id := repo_id, path := stats.repo_path, total_commits := stats.total_commits
    total_lines_added := stats.total_lines_added
    total_lines_removed := stats.total_lines_removed
    first_commit_date := stats.first_commit_date
    last_commit_date := stats.last_commit_date }

/-- The contributors row `save_stats` inserts for one map entry. -/
def contribRowOf (repo_id : Int) (stats : RepositoryStats)
    (p : String × ContributorStats) : ContributorRow :=
  { repository_id := repo_id, name := p.1, email := contributorEmail stats p.1
    commits := p.2.commits, lines_added := p.2.lines_added
    lines_removed := p.2.lines_removed, first_commit_date := p.2.first_commit
    last_commit_date := p.2.last_commit }

/-- The commits row `save_stats` inserts for one commit record. -/
def commitRowOf (repo_id : Int) (c : CommitInfo) : CommitRow :=
  { repository_id := repo_id, hash := c.hash, author := c.author, email := c.email
    date := c.date, message := c.message, lines_added := c.lines_added
    lines_removed := c.lines_removed, files_changed := c.files_changed }

/-- `save_stats` (src/db.rs lines 70-146): inside one transaction, insert
the repository row, take `last_insert_rowid()` as the repository id, insert
one contributors row per map entry (with the first-seen email), insert one
commits row per record, commit.  Returns the updated database and the new
repository id. -/
def save_stats (db : Database) (stats : RepositoryStats) : Database × Int :=
  let repo_id := db.next_repo_id
  ({ repositories := db.repositories ++ [repoRowOf repo_id stats]
     contributors := db.contributors ++ stats.contributors.map (contribRowOf repo_id stats)
     commits := db.commits ++ stats.commits.map (commitRowOf repo_id)
     next_repo_id := repo_id + 1 }, repo_id)

/-- The map entry `get_repository_stats` rebuilds from a contributors row. -/
def contribOfRow (row : ContributorRow) : String × ContributorStats :=
  (row.name,
    { commits := row.commits, lines_added := row.lines_added
      lines_removed := row.lines_removed, first_commit := row.first_commit_date
      last_commit := row.last_commit_date })

/-- The commit record `get_repository_stats` rebuilds from a commits row. -/
def commitOfRow (row : CommitRow) : CommitInfo :=
  { hash := row.hash, author := row.author, email := row.email, date := row.date
    message := row.message, lines_added := row.lines_added
    lines_removed := row.lines_removed, files_changed := row.files_changed }

/-- `get_repository_stats` (src/db.rs lines 149-264): look the repository row
up by id, rebuild the totals, rebuild the contributor map from that
repository's contributors rows, and rebuild the commits list from that
repository's commits rows ordered by date descending (`ORDER BY date DESC`). -/
def get_repository_stats (db : Database) (repo_id : Int) : Except String RepositoryStats :=
  match db.repositories.find? (fun r => r.id == repo_id) with
  | none => .error "Failed to find repository"
  | some r =>
    .ok { repo_path := r.path
          total_commits := r.total_commits
          total_lines_added := r.total_lines_added
          total_lines_removed := r.total_lines_removed
          first_commit_date := r.first_commit_date
          last_commit_date := r.last_commit_date
          contributors := (db.contributors.filter
            (fun row => row.repository_id == repo_id)).map contribOfRow
          commits := ((db.commits.filter (fun row => row.repository_id == repo_id)).mergeSort
            (fun a b => decide (b.date ≤ a.date))).map commitOfRow }

-- ======================================================================
-- Claim C9: one row per contributor name, first-seen email
-- ======================================================================

theorem find?_first_match (l₁ : List CommitInfo) (c : CommitInfo) (l₂ : List CommitInfo)
    (name : String) (hc : c.author = name) (h₁ : ∀ x ∈ l₁, ¬ x.author = name) :
    (l₁ ++ c :: l₂).find? (fun x => x.author == name) = some c := by
  induction l₁ with
  | nil =>
    simp only [List.nil_append]
    exact List.find?_cons_of_pos _ (by simp [hc])
  | cons a t ih =>
    have ha : ¬ a.author = name := h₁ a (List.mem_cons.mpr (Or.inl rfl))
    simp only [List.cons_append]
    rw [List.find?_cons_of_neg _ (by simp [ha])]
    exact ih (fun x hx => h₁ x (List.mem_cons.mpr (Or.inr hx)))

theorem filter_of_map {α β : Type} (f : α → β) (p : β → Bool) (l : List α) :
    (l.map f).filter p = (l.filter (fun x => p (f x))).map f := by
  induction l with
  | nil => rfl
  | cons a t ih =>
    simp only [List.map_cons, List.filter_cons]
    by_cases h : p (f a)
    · simp [h, ih]
    · simp [h, ih]

theorem filter_key_unique (m : List (String × ContributorStats)) (name : String)
    (cs : ContributorStats) (hn : (m.map Prod.fst).Nodup) (hmem : (name, cs) ∈ m) :
    m.filter (fun q => q.1 == name) = [(name, cs)] := by
  induction m with
  | nil => cases hmem
  | cons p rest ih =>
    obtain ⟨k, v⟩ := p
    simp only [List.map_cons, List.nodup_cons] at hn
    rcases List.mem_cons.mp hmem with h | h
    · have hkv : name = k ∧ cs = v := by
        rw [Prod.mk.injEq] at h
        exact h
      obtain ⟨hk1, hk2⟩ := hkv
      subst hk1
      subst hk2
      have hrest : rest.filter (fun q => q.1 == name) = [] := by
        rw [List.filter_eq_nil_iff]
        intro q hq
        simp only [beq_iff_eq]
        intro hq1
        exact hn.1 (hq1 ▸ List.mem_map_of_mem Prod.fst hq)
      rw [List.filter_cons]
      simp only [beq_self_eq_true, if_pos]
      rw [hrest]
    · have hkname : ¬ k = name := by
        intro he
        exact hn.1 (he ▸ List.mem_map_of_mem Prod.fst h)
      rw [List.filter_cons]
      have : (((k, v) : String × ContributorStats).1 == name) = false := by
        simp [hkname]
      rw [this]
      simp only [Bool.false_eq_true, if_neg]
      exact ih hn.2 h

/-- C9: for a contributor name present in the accumulator (under the
`HashMap` guarantee of unique keys and a fresh repository id), `save_stats`
writes exactly one contributors row for that name under the new repository
id; its email is the email of the FIRST record of the stored commits list
whose author matches the name (later records with the same name and a
different email are not merged), and when no stored record matches the
name the row's email is the empty string. -/
theorem save_stats_contributor_email (db : Database) (stats : RepositoryStats)
    (name : String) (cs : ContributorStats)
    (hfresh : ∀ row ∈ db.contributors, ¬ row.repository_id = db.next_repo_id)
    (hnodup : (stats.contributors.map Prod.fst).Nodup)
    (hmem : (name, cs) ∈ stats.contributors) :
    ∃ r, ((save_stats db stats).1.contributors.filter
        (fun row => row.repository_id == (save_stats db stats).2 && row.name == name)) =
          [r] ∧
      (∀ l₁ c l₂, stats.commits = l₁ ++ c :: l₂ → c.author = name →
        (∀ x ∈ l₁, ¬ x.author = name) → r.email = c.email) ∧
      ((∀ x ∈ stats.commits, ¬ x.author = name) → r.email = "") := by
  refine ⟨contribRowOf db.next_repo_id stats (name, cs), ?_, ?_, ?_⟩
  · show ((db.contributors ++ stats.contributors.map (contribRowOf db.next_repo_id stats)).filter
      (fun row => row.repository_id == db.next_repo_id && row.name == name)) = _
    rw [List.filter_append]
    have hold : db.contributors.filter
        (fun row => row.repository_id == db.next_repo_id && row.name == name) = [] := by
      rw [List.filter_eq_nil_iff]
      intro row hrow
      simp [hfresh row hrow]
    have hnew : (stats.contributors.map (contribRowOf db.next_repo_id stats)).filter
        (fun row => row.repository_id == db.next_repo_id && row.name == name) =
        [contribRowOf db.next_repo_id stats (name, cs)] := by
      rw [filter_of_map]
      have hpred : stats.contributors.filter
          (fun q => ((contribRowOf db.next_repo_id stats q).repository_id == db.next_repo_id &&
            (contribRowOf db.next_repo_id stats q).name == name)) =
          stats.contributors.filter (fun q => q.1 == name) := by
        apply List.filter_congr
        intro q _
        simp [contribRowOf]
      rw [hpred, filter_key_unique stats.contributors name cs hnodup hmem]
      rfl
    rw [hold, hnew]
    rfl
  · intro l₁ c l₂ hsplit hc h₁
    show contributorEmail stats name = c.email
    rw [contributorEmail, hsplit, find?_first_match l₁ c l₂ name hc h₁]
    rfl
  · intro hnone
    show contributorEmail stats name = ""
    rw [contributorEmail, List.find?_eq_none.mpr (fun x hx => by simp [hnone x hx])]
    rfl

def wDb9 : Database := { repositories := [], contributors := [], commits := [], next_repo_id := 1 }

def wCommitA2 : CommitInfo :=
  { hash := "a2", author := "alice", email := "other@x", date := 6, message := "m3"
    lines_added := 0, lines_removed := 1, files_changed := 1 }

def wStats9 : RepositoryStats :=
  { repo_path := "r", total_commits := 3, total_lines_added := 5, total_lines_removed := 3
    first_commit_date := 5, last_commit_date := 7
    contributors :=
      [("alice", { commits := 2, lines_added := 1, lines_removed := 3
                   first_commit := 5, last_commit := 6 }),
       ("bob", { commits := 1, lines_added := 4, lines_removed := 0
                 first_commit := 7, last_commit := 7 })]
    commits := [wCommitA, wCommitA2, wCommitB] }

/-- Witness for C9: "alice" has two stored records with different emails;
the persisted row keeps the first-seen one. -/
theorem save_stats_contributor_email_witness :
    (∀ row ∈ wDb9.contributors, ¬ row.repository_id = wDb9.next_repo_id) ∧
    ((wStats9.contributors.map Prod.fst).Nodup) ∧
    (("alice", { commits := 2, lines_added := 1, lines_removed := 3
                 first_commit := 5, last_commit := 6 : ContributorStats }) ∈
      wStats9.contributors) ∧
    (∃ r, ((save_stats wDb9 wStats9).1.contributors.filter
        (fun row => row.repository_id == (save_stats wDb9 wStats9).2 && row.name == "alice")) =
          [r] ∧
      (∀ l₁ c l₂, wStats9.commits = l₁ ++ c :: l₂ → c.author = "alice" →
        (∀ x ∈ l₁, ¬ x.author = "alice") → r.email = c.email) ∧
      ((∀ x ∈ wStats9.commits, ¬ x.author = "alice") → r.email = "")) :=
  ⟨by decide, by decide, by decide,
   save_stats_contributor_email wDb9 wStats9 "alice"
     { commits := 2, lines_added := 1, lines_removed := 3, first_commit := 5, last_commit := 6 }
     (by decide) (by decide) (by decide)⟩

-- ======================================================================
-- Claim C10: save/read round trip
-- ======================================================================

theorem contribOfRow_contribRowOf (repo_id : Int) (stats : RepositoryStats)
    (l : List (String × ContributorStats)) :
    (l.map (contribRowOf repo_id stats)).map contribOfRow = l := by
  induction l with
  | nil => rfl
  | cons p t ih =>
    simp only [List.map_cons, ih]
    rfl

theorem commitOfRow_commitRowOf (repo_id : Int) (l : List CommitInfo) :
    (l.map (commitRowOf repo_id)).map commitOfRow = l := by
  induction l with
  | nil => rfl
  | cons c t ih =>
    simp only [List.map_cons, ih]
    rfl

/-- C10: reading back a saved accumulator with the row id that the save
created reproduces the repository path, every repository total, the global
first/last commit dates and every per-contributor rollup exactly; the
returned commits list holds the same records, reordered by date descending
(so the round trip is the identity only up to commit-list order).  The
hypotheses say the database does not already use the repository id the
save is about to allocate (which `AUTOINCREMENT` guarantees). -/
theorem save_get_roundtrip (db : Database) (stats : RepositoryStats)
    (h1 : ∀ r ∈ db.repositories, ¬ r.id = db.next_repo_id)
    (h2 : ∀ row ∈ db.contributors, ¬ row.repository_id = db.next_repo_id)
    (h3 : ∀ row ∈ db.commits, ¬ row.repository_id = db.next_repo_id) :
    ∃ s, get_repository_stats (save_stats db stats).1 (save_stats db stats).2 = .ok s ∧
      s.repo_path = stats.repo_path ∧
      s.total_commits = stats.total_commits ∧
      s.total_lines_added = stats.total_lines_added ∧
      s.total_lines_removed = stats.total_lines_removed ∧
      s.first_commit_date = stats.first_commit_date ∧
      s.last_commit_date = stats.last_commit_date ∧
      s.contributors = stats.contributors ∧
      s.commits.Perm stats.commits ∧
      s.commits.Pairwise (fun a b => b.date ≤ a.date) := by
  have hfind : (save_stats db stats).1.repositories.find?
      (fun r => r.id == (save_stats db stats).2) = some (repoRowOf db.next_repo_id stats) := by
    show (db.repositories ++ [repoRowOf db.next_repo_id stats]).find?
      (fun r => r.id == db.next_repo_id) = _
    rw [List.find?_append]
    have hnone : db.repositories.find? (fun r => r.id == db.next_repo_id) = none :=
      List.find?_eq_none.mpr (fun x hx => by simp [h1 x hx])
    rw [hnone]
    rw [List.find?_cons_of_pos _ (by simp [repoRowOf])]
    rfl
  have hcontrib : (save_stats db stats).1.contributors.filter
      (fun row => row.repository_id == (save_stats db stats).2) =
      stats.contributors.map (contribRowOf db.next_repo_id stats) := by
    show (db.contributors ++ stats.contributors.map (contribRowOf db.next_repo_id stats)).filter
      (fun row => row.repository_id == db.next_repo_id) = _
    rw [List.filter_append]
    have hold : db.contributors.filter (fun row => row.repository_id == db.next_repo_id) = [] :=
      List.filter_eq_nil_iff.mpr (fun row hrow => by simp [h2 row hrow])
    have hnew : (stats.contributors.map (contribRowOf db.next_repo_id stats)).filter
        (fun row => row.repository_id == db.next_repo_id) =
        stats.contributors.map (contribRowOf db.next_repo_id stats) :=
      List.filter_eq_self.mpr (fun row hrow => by
        obtain ⟨q, _, hq⟩ := List.mem_map.mp hrow
        subst hq
        simp [contribRowOf])
    rw [hold, hnew, List.nil_append]
  have hcommits : (save_stats db stats).1.commits.filter
      (fun row => row.repository_id == (save_stats db stats).2) =
      stats.commits.map (commitRowOf db.next_repo_id) := by
    show (db.commits ++ stats.commits.map (commitRowOf db.next_repo_id)).filter
      (fun row => row.repository_id == db.next_repo_id) = _
    rw [List.filter_append]
    have hold : db.commits.filter (fun row => row.repository_id == db.next_repo_id) = [] :=
      List.filter_eq_nil_iff.mpr (fun row hrow => by simp [h3 row hrow])
    have hnew : (stats.commits.map (commitRowOf db.next_repo_id)).filter
        (fun row => row.repository_id == db.next_repo_id) =
        stats.commits.map (commitRowOf db.next_repo_id) :=
      List.filter_eq_self.mpr (fun row hrow => by
        obtain ⟨q, _, hq⟩ := List.mem_map.mp hrow
        subst hq
        simp [commitRowOf])
    rw [hold, hnew, List.nil_append]
  refine ⟨{ repo_path := stats.repo_path
            total_commits := stats.total_commits
            total_lines_added := stats.total_lines_added
            total_lines_removed := stats.total_lines_removed
            first_commit_date := stats.first_commit_date
            last_commit_date := stats.last_commit_date
            contributors := stats.contributors
            commits := ((stats.commits.map (commitRowOf db.next_repo_id)).mergeSort
              (fun a b => decide (b.date ≤ a.date))).map commitOfRow },
    ?_, rfl, rfl, rfl, rfl, rfl, rfl, rfl, ?_, ?_⟩
  · simp only [get_repository_stats, hfind, hcontrib, hcommits,
      contribOfRow_contribRowOf, repoRowOf]
  · show (((stats.commits.map (commitRowOf db.next_repo_id)).mergeSort
      (fun a b => decide (b.date ≤ a.date))).map commitOfRow).Perm stats.commits
    have hperm := List.mergeSort_perm (stats.commits.map (commitRowOf db.next_repo_id))
      (fun a b => decide (b.date ≤ a.date))
    have hmapped := hperm.map commitOfRow
    rw [commitOfRow_commitRowOf] at hmapped
    exact hmapped
  · show (((stats.commits.map (commitRowOf db.next_repo_id)).mergeSort
      (fun a b => decide (b.date ≤ a.date))).map commitOfRow).Pairwise
        (fun a b => b.date ≤ a.date)
    have htrans : ∀ a b c : CommitRow, (fun a b => decide (b.date ≤ a.date)) a b = true →
        (fun a b => decide (b.date ≤ a.date)) b c = true →
        (fun a b => decide (b.date ≤ a.date)) a c = true := by
      intro a b c hab hbc
      simp only [decide_eq_true_eq] at hab hbc ⊢
      omega
    have htotal : ∀ a b : CommitRow, ((fun a b => decide (b.date ≤ a.date)) a b ||
        (fun a b => decide (b.date ≤ a.date)) b a) = true := by
      intro a b
      by_cases h : b.date ≤ a.date
      · simp [h]
      · simp only [Bool.or_eq_true, decide_eq_true_eq]
        omega
    have hs := List.sorted_mergeSort htrans htotal
      (stats.commits.map (commitRowOf db.next_repo_id))
    exact List.Pairwise.map commitOfRow
      (fun a b hab => by
        have : b.date ≤ a.date := by
          simpa using hab
        exact this) hs

def wDb10 : Database := { repositories := [], contributors := [], commits := [], next_repo_id := 1 }

def wStats10 : RepositoryStats :=
  { repo_path := "r10", total_commits := 3, total_lines_added := 5, total_lines_removed := 3
    first_commit_date := 5, last_commit_date := 7
    contributors :=
      [("alice", { commits := 2, lines_added := 1, lines_removed := 3
                   first_commit := 5, last_commit := 6 }),
       ("bob", { commits := 1, lines_added := 4, lines_removed := 0
                 first_commit := 7, last_commit := 7 })]
    commits := [wCommitA, wCommitA2, wCommitB] }

/-- Witness for C10 on a concrete database and accumulator. -/
theorem save_get_roundtrip_witness :
    (∀ r ∈ wDb10.repositories, ¬ r.id = wDb10.next_repo_id) ∧
    (∀ row ∈ wDb10.contributors, ¬ row.repository_id = wDb10.next_repo_id) ∧
    (∀ row ∈ wDb10.commits, ¬ row.repository_id = wDb10.next_repo_id) ∧
    (∃ s, get_repository_stats (save_stats wDb10 wStats10).1 (save_stats wDb10 wStats10).2 =
        .ok s ∧
      s.repo_path = wStats10.repo_path ∧
      s.total_commits = wStats10.total_commits ∧
      s.total_lines_added = wStats10.total_lines_added ∧
      s.total_lines_removed = wStats10.total_lines_removed ∧
      s.first_commit_date = wStats10.first_commit_date ∧
      s.last_commit_date = wStats10.last_commit_date ∧
      s.contributors = wStats10.contributors ∧
      s.commits.Perm wStats10.commits ∧
      s.commits.Pairwise (fun a b => b.date ≤ a.date)) :=
  ⟨by decide, by decide, by decide,
   save_get_roundtrip wDb10 wStats10 (by decide) (by decide) (by decide)⟩

def wStatsC2 : RepositoryStats :=
  [wCommitA, wCommitA2, wCommitB].foldl RepositoryStats.add_commit (RepositoryStats.new 100 "r")

/-- Witness for C2 on a concrete three-commit fold (two records by "alice"). -/
theorem add_commit_invariants_witness :
    contribFind wStatsC2.contributors "alice" =
      some { commits := 2, lines_added := 1, lines_removed := 3
             first_commit := 5, last_commit := 6 } ∧
    (wStatsC2.total_commits = wStatsC2.commits.length ∧
     wStatsC2.total_lines_added = (wStatsC2.commits.map CommitInfo.lines_added).sum ∧
     wStatsC2.total_lines_removed = (wStatsC2.commits.map CommitInfo.lines_removed).sum ∧
     ({ commits := 2, lines_added := 1, lines_removed := 3
        first_commit := 5, last_commit := 6 : ContributorStats }).commits =
       wStatsC2.commits.countP (fun c => c.author == "alice")) :=
  ⟨by decide, by
    have h := add_commit_invariants 100 "r" [wCommitA, wCommitA2, wCommitB] "alice"
      { commits := 2, lines_added := 1, lines_removed := 3, first_commit := 5, last_commit := 6 }
    exact ⟨h.1, h.2.1, h.2.2.1, h.2.2.2 (by decide)⟩⟩
